import Mathlib

/-!
Verification development for the symmetry-aware tensor backend layer
(`tenpy.linalg.backends`): a shallow embedding of the backend data model
(`Dtype`, `VectorSpace`, the abstract block-backend operation table) and of
the no-symmetry tensor backend, together with a concrete rational-entried
block model for the block-level operations that the repository only declares
abstractly.  Theorems at the end settle the behavioural claims about this
layer.
-/

set_option maxRecDepth 4096

namespace Tenpy

/-- Numeric precision enumeration, from `abstract_backend.py` (`Precision`). -/
inductive Precision where
  | half
  | single
  | double
  | long_double
  | quadruple
deriving DecidableEq, Repr

/-- Value type describing numeric precision and realness, from
`abstract_backend.py` (`Dtype`). -/
structure Dtype where
  precision : Precision
  is_real : Bool
deriving DecidableEq, Repr

/-- From `Dtype.as_real`: `return Dtype(self.precision, is_real=True)`. -/
def Dtype.as_real (d : Dtype) : Dtype := ⟨d.precision, true⟩

/-- From `Dtype.as_complex`: `return Dtype(self.precision, is_real=False)`. -/
def Dtype.as_complex (d : Dtype) : Dtype := ⟨d.precision, false⟩

/-- Modelled from the spec: the `tenpy.linalg.symmetries` module is not under
src/; the spec only needs the trivial symmetry to be distinguishable from at
least one non-trivial symmetry label, so we model the symmetry type as an
enumeration with the trivial label and one non-trivial label. -/
inductive AbstractSymmetry where
  | no_symmetry
  | u1
deriving DecidableEq, Repr

/-- Short display string of a symmetry, standing in for the string conversion
used by the python error messages. -/
def AbstractSymmetry.str : AbstractSymmetry → String
  | .no_symmetry => "no symmetry"
  | .u1 => "u1"

/-- Modelled from the spec: `VectorSpace` lives in the missing
`tenpy.linalg.symmetries` module; per the spec it is identified by a
dimension, a symmetry label and a realness flag. -/
structure VectorSpace where
  symmetry : AbstractSymmetry
  dim : ℕ
  is_real : Bool
deriving DecidableEq, Repr

/-- Modelled from the spec: `VectorSpace.non_symmetric(dim, is_real)` builds a
leg with the trivial symmetry. -/
def VectorSpace.non_symmetric (dim : ℕ) (is_real : Bool) : VectorSpace :=
  ⟨.no_symmetry, dim, is_real⟩

/-- The kinds of python exception the embedded code can raise. -/
inductive PyError where
  | valueError (msg : String)
  | userWarning
  | indexError
deriving DecidableEq, Repr

/-- Whether a fallible result is a raised `ValueError`. -/
def isValueError {α : Type} : Except PyError α → Bool
  | .error (.valueError _) => true
  | _ => false

/-- Operation table of `AbstractBlockBackend` from `abstract_backend.py`: the
numeric-block provider contract, abstract in the source (all methods are
declared without bodies), so it is embedded as a structure of functions over
an opaque block type.  Complex scalars are modelled as pairs. -/
structure AbstractBlockBackend (Block : Type) where
  block_is_real : Block → Bool
  block_shape : Block → List ℕ
  block_item : Block → ℚ × ℚ
  block_dtype : Block → Dtype
  block_copy : Block → Block
  block_tdot : Block → Block → List ℕ → List ℕ → Block
  block_outer : Block → Block → Block
  block_inner : Block → Block → ℚ × ℚ
  block_transpose : Block → List ℕ → Block
  block_trace : Block → List ℕ → List ℕ → Block
  block_conj : Block → Block
  block_combine_legs : Block → List ℕ → Block
  block_split_leg : Block → ℕ → List ℕ → Block

variable {Block : Type}

/-- From `no_symmtery.py` (`AbstractNoSymmetryBackend.is_real`). -/
def is_real (K : AbstractBlockBackend Block) (data : Block) : Bool :=
  K.block_is_real data

/-- From `no_symmtery.py` (`AbstractNoSymmetryBackend.infer_legs`):
one non-symmetric `VectorSpace` per block axis, carrying the realness of the
data. -/
def infer_legs (K : AbstractBlockBackend Block) (data : Block) : List VectorSpace :=
  (K.block_shape data).map (fun d => VectorSpace.non_symmetric d (is_real K data))

/-- From `no_symmtery.py` (`AbstractNoSymmetryBackend.tdot`). -/
def tdot (K : AbstractBlockBackend Block) (a b : Block) (a_axes b_axes : List ℕ) : Block :=
  K.block_tdot a b a_axes b_axes

/-- Loop body of `AbstractNoSymmetryBackend.legs_are_compatible`: iterates the
legs with their position `n`, returning `False` as soon as a leg fails the
check; in the python source `shape[n]` is only evaluated after
`leg.symmetry == no_symmetry` succeeded (short-circuit `and`), and raises
`IndexError` when `n` is out of range. -/
def legsCompatGo (shape : List ℕ) : ℕ → List VectorSpace → Except PyError Bool
  | _, [] => .ok true
  | n, leg :: rest =>
    if leg.symmetry = .no_symmetry then
      match shape.get? n with
      | some d => if leg.dim = d then legsCompatGo shape (n + 1) rest else .ok false
      | none => .error .indexError
    else
      .ok false

/-- From `no_symmtery.py` (`AbstractNoSymmetryBackend.legs_are_compatible`). -/
def legs_are_compatible (K : AbstractBlockBackend Block) (data : Block)
    (legs : List VectorSpace) : Except PyError Bool :=
  legsCompatGo (K.block_shape data) 0 legs

/-- From `no_symmtery.py` (`AbstractNoSymmetryBackend.item`). -/
def item (K : AbstractBlockBackend Block) (data : Block) : ℚ × ℚ :=
  K.block_item data

/-- From `no_symmtery.py` (`AbstractNoSymmetryBackend.to_dense_block`):
`return data`. -/
def to_dense_block (data : Block) : Block := data

/-- From `no_symmtery.py` (`AbstractNoSymmetryBackend.reduce_symmetry`):
returns the data unchanged for the trivial symmetry and raises `ValueError`
otherwise. -/
def reduce_symmetry (data : Block) (new_symm : AbstractSymmetry) : Except PyError Block :=
  if new_symm = .no_symmetry then
    .ok data
  else
    .error (.valueError ("Can not decrease " ++ AbstractSymmetry.str .no_symmetry ++
      " to " ++ new_symm.str ++ "."))

/-- From `no_symmtery.py` (`AbstractNoSymmetryBackend.increase_symmetry`):
on the trivial-symmetry branch the source executes `raise UserWarning` before
an unreachable `return data`; on any other symmetry it raises `ValueError`. -/
def increase_symmetry (data : Block) (new_symm : AbstractSymmetry)
    (atol rtol : ℚ) : Except PyError Block :=
  if new_symm = .no_symmetry then
    .error .userWarning
  else
    .error (.valueError ("backend can not represent " ++ new_symm.str ++ "."))

/-- From `no_symmtery.py` (`AbstractNoSymmetryBackend.outer`). -/
def outer (K : AbstractBlockBackend Block) (a b : Block) : Block :=
  K.block_outer a b

/-- From `no_symmtery.py` (`AbstractNoSymmetryBackend.inner`). -/
def inner (K : AbstractBlockBackend Block) (a b : Block) : ℚ × ℚ :=
  K.block_inner a b

/-- From `no_symmtery.py` (`AbstractNoSymmetryBackend.transpose`). -/
def transpose (K : AbstractBlockBackend Block) (a : Block) (permutation : List ℕ) : Block :=
  K.block_transpose a permutation

/-- From `no_symmtery.py` (`AbstractNoSymmetryBackend.trace`). -/
def trace (K : AbstractBlockBackend Block) (a : Block) (idcs1 idcs2 : List ℕ) : Block :=
  K.block_trace a idcs1 idcs2

/-- From `no_symmtery.py` (`AbstractNoSymmetryBackend.conj`). -/
def conj (K : AbstractBlockBackend Block) (a : Block) : Block :=
  K.block_conj a

/-- From `no_symmtery.py` (`AbstractNoSymmetryBackend.combine_legs`). -/
def combine_legs (K : AbstractBlockBackend Block) (a : Block) (legs : List ℕ) : Block :=
  K.block_combine_legs a legs

/-- From `no_symmtery.py` (`AbstractNoSymmetryBackend.split_leg`):
passes the dimensions of the original spaces down to the block backend. -/
def split_leg (K : AbstractBlockBackend Block) (a : Block) (leg : ℕ)
    (orig_spaces : List VectorSpace) : Block :=
  K.block_split_leg a leg (orig_spaces.map (fun s => s.dim))

/-- From `no_symmtery.py` (`AbstractNoSymmetryBackend.num_parameters`):
`prod(l.dim for l in legs)`. -/
def num_parameters (legs : List VectorSpace) : ℕ :=
  (legs.map (fun l => l.dim)).prod

/-- All multi-indices of a rectangular shape, in row-major order. -/
def allIndices : List ℕ → List (List ℕ)
  | [] => [[]]
  | d :: ds => (List.range d).flatMap (fun i => (allIndices ds).map (fun t => i :: t))

/-- Modelled from the spec: the repository declares the block operations
abstractly (the concrete numeric-block provider is an external collaborator),
so dense blocks are modelled as a shape together with an entry function on
row-major multi-indices; entries are rational (a real numeric block). -/
structure QBlock where
  shape : List ℕ
  entry : List ℕ → ℚ

/-- A multi-index is valid for a shape when it has the same length and is
pointwise below the axis extents. -/
def validIdx (shape idx : List ℕ) : Prop :=
  List.Forall₂ (fun i d => i < d) idx shape

instance (shape idx : List ℕ) : Decidable (validIdx shape idx) :=
  inferInstanceAs (Decidable (List.Forall₂ _ _ _))

/-- Extensional equality of blocks: same shape and the same entries on every
valid multi-index. -/
def blockEq (a b : QBlock) : Prop :=
  a.shape = b.shape ∧ ∀ idx, validIdx b.shape idx → a.entry idx = b.entry idx

/-- Row-major flattening of a multi-index with respect to per-axis extents. -/
def enc : List ℕ → List ℕ → ℕ
  | _, [] => 0
  | [], _ :: _ => 0
  | _ :: ds, i :: is => i * ds.prod + enc ds is

/-- Row-major unflattening of a single index into per-axis coordinates. -/
def dec : List ℕ → ℕ → List ℕ
  | [], _ => []
  | _ :: ds, c => c / ds.prod :: dec ds (c % ds.prod)

/-- Position of a value in a list of naturals (first occurrence; length of the
list when absent). -/
def posOf : List ℕ → ℕ → ℕ
  | [], _ => 0
  | a :: l, j => if a = j then 0 else posOf l j + 1

/-- Modelled from the spec: `block_transpose(a, permutation)`; result axis `i`
equals input axis `permutation[i]`. -/
def transposeB (a : QBlock) (perm : List ℕ) : QBlock where
  shape := perm.map (fun i => a.shape.getD i 0)
  entry := fun idx => a.entry ((List.range a.shape.length).map (fun j => idx.getD (posOf perm j) 0))

/-- Merge the `k` axes starting at position `p` into a single axis, row-major
over those axes in order. -/
def mergeAt (a : QBlock) (p k : ℕ) : QBlock where
  shape := a.shape.take p ++ [((a.shape.drop p).take k).prod] ++ a.shape.drop (p + k)
  entry := fun idx =>
    a.entry (idx.take p ++ dec ((a.shape.drop p).take k) (idx.getD p 0) ++ idx.drop (p + 1))

/-- Modelled from the spec: `block_split_leg(a, leg, dims)`; the axis at
position `leg` is split into `dims.length` axes of extents `dims`, inverting
the row-major fusion. -/
def QBlock.block_split_leg (a : QBlock) (leg : ℕ) (dims : List ℕ) : QBlock where
  shape := a.shape.take leg ++ dims ++ a.shape.drop (leg + 1)
  entry := fun idx =>
    a.entry (idx.take leg ++ [enc dims ((idx.drop leg).take dims.length)] ++
      idx.drop (leg + dims.length))

/-- Axes of a rank-`r` block that are not in the listed axis set. -/
def restAxes (r : ℕ) (legs : List ℕ) : List ℕ :=
  (List.range r).filter (fun i => decide (i ∉ legs))

/-- Position at which the fused axis is placed: the number of remaining axes
below the first listed axis. -/
def combinePos (r : ℕ) (legs : List ℕ) : ℕ :=
  ((restAxes r legs).filter (fun i => decide (i < legs.headD 0))).length

/-- Axis order before merging: the listed axes, in the order given, moved next
to each other at the position of the first listed axis, all other axes keeping
their relative order. -/
def combinePerm (r : ℕ) (legs : List ℕ) : List ℕ :=
  (restAxes r legs).take (combinePos r legs) ++ legs ++
    (restAxes r legs).drop (combinePos r legs)

/-- Modelled from the spec: `block_combine_legs(a, legs)` fuses the
contiguous-or-not axis set `legs` into a single new axis placed at the
position of the first listed axis, fusing row-major over the listed axes in
the order given; matches the behaviour asserted by the repository test
`test_combine_split` (non-adjacent axes are first moved next to each other,
the other axes keeping their relative order). -/
def QBlock.block_combine_legs (a : QBlock) (legs : List ℕ) : QBlock :=
  mergeAt (transposeB a (combinePerm a.shape.length legs)) (combinePos a.shape.length legs)
    legs.length

/-- Modelled from the spec: `block_outer(a, b)`; axes of `a` followed by axes
of `b`, entries multiply. -/
def QBlock.block_outer (a b : QBlock) : QBlock where
  shape := a.shape ++ b.shape
  entry := fun idx => a.entry (idx.take a.shape.length) * b.entry (idx.drop a.shape.length)

/-- Modelled from the spec: `block_inner(a, b)`; sum over all matching indices
of `conj(a) * b` (entries are real, so conjugation is the identity);
complex scalars are returned as pairs. -/
def QBlock.block_inner (a b : QBlock) : ℚ × ℚ :=
  (((allIndices a.shape).map (fun idx => a.entry idx * b.entry idx)).sum, 0)

/-- Modelled from the spec: `block_conj(a)`; elementwise complex conjugate,
the identity on real entries. -/
def QBlock.block_conj (a : QBlock) : QBlock where
  shape := a.shape
  entry := a.entry

/-- Reassemble a full multi-index from values on the free axes and values on
the bound axes. -/
def assemble (r : ℕ) (free freeVals bound boundVals : List ℕ) : List ℕ :=
  (List.range r).map (fun j =>
    if bound.contains j then boundVals.getD (posOf bound j) 0
    else freeVals.getD (posOf free j) 0)

/-- Modelled from the spec: `block_tdot(a, b, idcs_a, idcs_b)`; contracts the
listed axes pairwise, the result carrying the remaining axes of `a` followed
by the remaining axes of `b`. -/
def QBlock.block_tdot (a b : QBlock) (idcs_a idcs_b : List ℕ) : QBlock :=
  let ra := restAxes a.shape.length idcs_a
  let rb := restAxes b.shape.length idcs_b
  let cdims := idcs_a.map (fun i => a.shape.getD i 0)
  { shape := ra.map (fun i => a.shape.getD i 0) ++ rb.map (fun i => b.shape.getD i 0)
    entry := fun idx =>
      ((allIndices cdims).map (fun c =>
        a.entry (assemble a.shape.length ra (idx.take ra.length) idcs_a c) *
        b.entry (assemble b.shape.length rb (idx.drop ra.length) idcs_b c))).sum }

/-- Modelled from the spec: `block_trace(a, idcs1, idcs2)`; pairs the listed
axes, sums the diagonal over each pair, the remaining axes keeping their
relative order. -/
def QBlock.block_trace (a : QBlock) (idcs1 idcs2 : List ℕ) : QBlock :=
  let rem := (List.range a.shape.length).filter
    (fun i => decide (i ∉ idcs1) && decide (i ∉ idcs2))
  let ddims := idcs1.map (fun i => a.shape.getD i 0)
  { shape := rem.map (fun i => a.shape.getD i 0)
    entry := fun idx =>
      ((allIndices ddims).map (fun c =>
        a.entry ((List.range a.shape.length).map (fun j =>
          if idcs1.contains j then c.getD (posOf idcs1 j) 0
          else if idcs2.contains j then c.getD (posOf idcs2 j) 0
          else idx.getD (posOf rem j) 0)))).sum }

/-- Modelled from the spec: a concrete numeric-block provider over `QBlock`,
wiring the block operation table to the dense-block model. -/
def Kq : AbstractBlockBackend QBlock where
  block_is_real := fun _ => true
  block_shape := fun a => a.shape
  block_item := fun a => (a.entry [], 0)
  block_dtype := fun _ => ⟨Precision.double, true⟩
  block_copy := fun a => a
  block_tdot := QBlock.block_tdot
  block_outer := QBlock.block_outer
  block_inner := QBlock.block_inner
  block_transpose := transposeB
  block_trace := QBlock.block_trace
  block_conj := QBlock.block_conj
  block_combine_legs := QBlock.block_combine_legs
  block_split_leg := QBlock.block_split_leg

/-- Sum of squares of a list of singular values; the squared norm. -/
def sumSq (S : List ℚ) : ℚ := (S.map (fun x => x * x)).sum

/-- Modelled from the spec: the truncation policy of the backend `svd`
(abstract in `no_symmtery.py`): restrict to the `max_singular_values` largest
values of the descending-sorted list, then drop the trailing values below
`threshold`; the under-determined `max_err` interaction, an open question in
the spec, is not modelled. -/
def svdKept (S : List ℚ) (max_singular_values : ℕ) (threshold : ℚ) : List ℚ :=
  (S.take max_singular_values).takeWhile (fun x => decide (threshold ≤ x))

/-- The singular values discarded by the truncation policy. -/
def svdDiscarded (S : List ℚ) (max_singular_values : ℕ) (threshold : ℚ) : List ℚ :=
  S.drop (svdKept S max_singular_values threshold).length

/-- Modelled from the spec: the squared relative truncation error returned by
`svd`, the squared norm of the discarded values over the squared norm of all
values. -/
def svdTruncErrSq (S : List ℚ) (max_singular_values : ℕ) (threshold : ℚ) : ℚ :=
  sumSq (svdDiscarded S max_singular_values threshold) / sumSq S

/-- A concrete rank-2 block of shape `[2, 3]` used as witness data. -/
def qb2 : QBlock where
  shape := [2, 3]
  entry := fun idx => (3 * idx.getD 0 0 + idx.getD 1 0 : ℤ)

/-- A concrete rank-3 block of shape `[2, 2, 2]` with pairwise distinct
entries, used as witness and counterexample data. -/
def qb3 : QBlock where
  shape := [2, 2, 2]
  entry := fun idx => (4 * idx.getD 0 0 + 2 * idx.getD 1 0 + idx.getD 2 0 : ℤ)

/-- A scalar (rank-0) block. -/
def qb0 : QBlock where
  shape := []
  entry := fun _ => 1

theorem length_allIndices (ds : List ℕ) : (allIndices ds).length = ds.prod := by
  induction ds with
  | nil => simp [allIndices]
  | cons d ds ih =>
    simp only [allIndices, List.length_flatMap, Function.comp_def, List.length_map,
      List.prod_cons, ih, List.map_const', List.sum_replicate, List.length_range,
      smul_eq_mul]

/-- C10: for the no-symmetry backend, `to_dense_block` is the identity on the
data payload. -/
theorem to_dense_block_is_identity : ∀ (Block : Type) (data : Block),
    to_dense_block data = data :=
  fun _ _ => rfl

/-- C3: each of the tensor-level operations `tdot`, `outer`, `inner`,
`transpose`, `trace` and `conj` of the no-symmetry backend returns exactly the
result of the corresponding block-level operation applied to the same
arguments, for every block backend and every input. -/
theorem no_symmetry_ops_delegate : ∀ (Block : Type) (K : AbstractBlockBackend Block)
    (a b : Block) (a_axes b_axes permutation idcs1 idcs2 : List ℕ),
    tdot K a b a_axes b_axes = K.block_tdot a b a_axes b_axes ∧
    outer K a b = K.block_outer a b ∧
    inner K a b = K.block_inner a b ∧
    transpose K a permutation = K.block_transpose a permutation ∧
    trace K a idcs1 idcs2 = K.block_trace a idcs1 idcs2 ∧
    conj K a = K.block_conj a :=
  fun _ _ _ _ _ _ _ _ _ => ⟨rfl, rfl, rfl, rfl, rfl, rfl⟩

/-- C9 counterexample: on an already-real `Dtype`, `as_real` does not flip the
realness flag; it returns the flag set to `true`, which here equals the
original flag rather than its negation. -/
theorem as_real_does_not_flip :
    ¬ ((Dtype.as_real ⟨Precision.double, true⟩).is_real
        = !(Dtype.mk Precision.double true).is_real) := by
  decide

/-- C9 amended: `as_real` and `as_complex` keep the precision and set the
realness flag to `true` respectively `false` (flipping it only when it
differed), leaving the argument unchanged. -/
theorem as_real_as_complex_spec (d : Dtype) :
    d.as_real.precision = d.precision ∧ d.as_real.is_real = true ∧
    d.as_complex.precision = d.precision ∧ d.as_complex.is_real = false :=
  ⟨rfl, rfl, rfl, rfl⟩

/-- C1: evaluating `increase_symmetry` of the no-symmetry backend at the
failing input `new_symm = no_symmetry` raises `UserWarning` instead of
returning the data unchanged (the `return data` in the source is unreachable);
a genuinely different symmetry raises `ValueError` as the claim states. -/
theorem increase_symmetry_at_failing_input :
    @increase_symmetry ℚ 1 .no_symmetry (1 / 100000000) (1 / 100000)
      = .error .userWarning ∧
    isValueError (@increase_symmetry ℚ 1 .u1 (1 / 100000000) (1 / 100000)) = true :=
  ⟨rfl, rfl⟩

/-- C2: `reduce_symmetry` of the no-symmetry backend returns the data
unchanged when the new symmetry is the trivial one, and raises `ValueError`
for every other new symmetry. -/
theorem reduce_symmetry_spec : ∀ (Block : Type) (data : Block)
    (new_symm : AbstractSymmetry),
    (new_symm = .no_symmetry → reduce_symmetry data new_symm = .ok data) ∧
    (new_symm ≠ .no_symmetry → isValueError (reduce_symmetry data new_symm) = true) := by
  intro B data new_symm
  constructor
  · intro h
    simp [reduce_symmetry, h]
  · intro h
    simp [reduce_symmetry, h, isValueError]

theorem reduce_symmetry_spec_witness :
    reduce_symmetry (1 : ℚ) .no_symmetry = .ok 1 ∧
    isValueError (reduce_symmetry (1 : ℚ) .u1) = true :=
  ⟨(reduce_symmetry_spec ℚ 1 .no_symmetry).1 rfl,
    (reduce_symmetry_spec ℚ 1 .u1).2 (by decide)⟩

theorem get?_eq_some_getD {α : Type} (l : List α) (n : ℕ) (d : α) (h : n < l.length) :
    l.get? n = some (l.getD n d) := by
  induction l generalizing n with
  | nil => simp at h
  | cons a t ih =>
    cases n with
    | zero => rfl
    | succ m =>
      have hm : m < t.length := by simpa using h
      simpa using ih m hm

theorem legsCompatGo_spec (legs : List VectorSpace) : ∀ (shape : List ℕ) (n : ℕ),
    n + legs.length ≤ shape.length →
    (∃ b, legsCompatGo shape n legs = .ok b) ∧
    (legsCompatGo shape n legs = .ok true ↔
      ∀ i (hi : i < legs.length),
        (legs.get ⟨i, hi⟩).symmetry = .no_symmetry ∧
        (legs.get ⟨i, hi⟩).dim = shape.getD (n + i) 0) := by
  induction legs with
  | nil =>
    intro shape n h
    refine ⟨⟨true, rfl⟩, ?_⟩
    constructor
    · intro _ i hi
      exact absurd hi (Nat.not_lt_zero i)
    · intro _
      rfl
  | cons leg rest ih =>
    intro shape n h
    have hn : n < shape.length := by
      simp only [List.length_cons] at h
      omega
    have hget : shape.get? n = some (shape.getD n 0) := get?_eq_some_getD shape n 0 hn
    by_cases hsym : leg.symmetry = .no_symmetry
    · by_cases hdim : leg.dim = shape.getD n 0
      · have h' : (n + 1) + rest.length ≤ shape.length := by
          simp only [List.length_cons] at h
          omega
        obtain ⟨⟨b, hb⟩, hiff⟩ := ih shape (n + 1) h'
        have hunf : legsCompatGo shape n (leg :: rest) = legsCompatGo shape (n + 1) rest := by
          show (if leg.symmetry = .no_symmetry then
              match shape.get? n with
              | some d => if leg.dim = d then legsCompatGo shape (n + 1) rest
                  else Except.ok false
              | none => Except.error PyError.indexError
            else Except.ok false) = legsCompatGo shape (n + 1) rest
          rw [if_pos hsym, hget]
          exact if_pos hdim
        refine ⟨⟨b, by rw [hunf]; exact hb⟩, ?_⟩
        rw [hunf, hiff]
        constructor
        · intro hall i hi
          cases i with
          | zero =>
            refine ⟨hsym, ?_⟩
            simpa using hdim
          | succ j =>
            have hj : j < rest.length := Nat.lt_of_succ_lt_succ hi
            have harith : n + (j + 1) = (n + 1) + j := by omega
            rw [List.get_cons_succ, harith]
            exact hall j hj
        · intro hall i hi
          have hstep := hall (i + 1) (Nat.succ_lt_succ hi)
          rw [List.get_cons_succ] at hstep
          have harith : n + (i + 1) = (n + 1) + i := by omega
          rw [harith] at hstep
          exact hstep
      · have hunf : legsCompatGo shape n (leg :: rest) = .ok false := by
          show (if leg.symmetry = .no_symmetry then
              match shape.get? n with
              | some d => if leg.dim = d then legsCompatGo shape (n + 1) rest
                  else Except.ok false
              | none => Except.error PyError.indexError
            else Except.ok false) = Except.ok false
          rw [if_pos hsym, hget]
          exact if_neg hdim
        refine ⟨⟨false, hunf⟩, ?_⟩
        rw [hunf]
        constructor
        · intro habs
          exact absurd (Except.ok.inj habs) Bool.false_ne_true
        · intro hall
          have h0 := hall 0 (Nat.succ_pos _)
          exact absurd h0.2 hdim
    · have hunf : legsCompatGo shape n (leg :: rest) = .ok false := by
        show (if leg.symmetry = .no_symmetry then
            match shape.get? n with
            | some d => if leg.dim = d then legsCompatGo shape (n + 1) rest
                else Except.ok false
            | none => Except.error PyError.indexError
          else Except.ok false) = Except.ok false
        exact if_neg hsym
      refine ⟨⟨false, hunf⟩, ?_⟩
      rw [hunf]
      constructor
      · intro habs
        exact absurd (Except.ok.inj habs) Bool.false_ne_true
      · intro hall
        have h0 := hall 0 (Nat.succ_pos _)
        exact absurd h0.1 hsym

/-- C4 amended: whenever the supplied leg list is no longer than the rank of
the data, `legs_are_compatible` returns a boolean, and returns `True` exactly
when every supplied leg has the trivial symmetry and its declared dimension
equals the extent of the same-position block axis; a longer leg list whose
prefix passes the checks instead raises `IndexError`. -/
theorem legs_are_compatible_spec : ∀ (Block : Type) (K : AbstractBlockBackend Block)
    (data : Block) (legs : List VectorSpace),
    legs.length ≤ (K.block_shape data).length →
    (∃ b, legs_are_compatible K data legs = .ok b) ∧
    (legs_are_compatible K data legs = .ok true ↔
      ∀ i (hi : i < legs.length),
        (legs.get ⟨i, hi⟩).symmetry = .no_symmetry ∧
        (legs.get ⟨i, hi⟩).dim = (K.block_shape data).getD i 0) := by
  intro B K data legs h
  have h0 : 0 + legs.length ≤ (K.block_shape data).length := by omega
  obtain ⟨hex, hiff⟩ := legsCompatGo_spec legs (K.block_shape data) 0 h0
  refine ⟨hex, ?_⟩
  rw [show legs_are_compatible K data legs = legsCompatGo (K.block_shape data) 0 legs from rfl,
    hiff]
  constructor
  · intro hall i hi
    have := hall i hi
    rwa [Nat.zero_add] at this
  · intro hall i hi
    have := hall i hi
    rwa [Nat.zero_add]

theorem legs_are_compatible_spec_witness :
    [VectorSpace.non_symmetric 2 true, VectorSpace.non_symmetric 3 true].length
      ≤ (Kq.block_shape qb2).length ∧
    (legs_are_compatible Kq qb2
        [VectorSpace.non_symmetric 2 true, VectorSpace.non_symmetric 3 true] = .ok true ↔
      ∀ i (hi : i < [VectorSpace.non_symmetric 2 true,
          VectorSpace.non_symmetric 3 true].length),
        ([VectorSpace.non_symmetric 2 true,
            VectorSpace.non_symmetric 3 true].get ⟨i, hi⟩).symmetry = .no_symmetry ∧
        ([VectorSpace.non_symmetric 2 true,
            VectorSpace.non_symmetric 3 true].get ⟨i, hi⟩).dim
          = (Kq.block_shape qb2).getD i 0) :=
  ⟨by decide,
    (legs_are_compatible_spec QBlock Kq qb2
      [VectorSpace.non_symmetric 2 true, VectorSpace.non_symmetric 3 true] (by decide)).2⟩

/-- C4 counterexample: on a rank-0 block with one supplied trivial leg the
source raises `IndexError` instead of returning `False`, so
`legs_are_compatible` does not return a boolean for every list of legs. -/
theorem legs_are_compatible_raises_on_long_legs :
    legs_are_compatible Kq qb0 [VectorSpace.non_symmetric 1 true] = .error .indexError ∧
    ∀ b : Bool, legs_are_compatible Kq qb0 [VectorSpace.non_symmetric 1 true] ≠ .ok b := by
  refine ⟨rfl, ?_⟩
  intro b
  cases b <;> simp [legs_are_compatible, legsCompatGo, Kq, qb0, VectorSpace.non_symmetric]

/-- C8: `infer_legs` of the no-symmetry backend returns one leg per block
axis; each leg has the trivial symmetry, the dimension of the same-position
axis extent, and the realness of the data, for every block backend. -/
theorem infer_legs_spec : ∀ (Block : Type) (K : AbstractBlockBackend Block) (data : Block),
    (infer_legs K data).length = (K.block_shape data).length ∧
    ∀ i (hi : i < (infer_legs K data).length),
      ((infer_legs K data).get ⟨i, hi⟩).symmetry = .no_symmetry ∧
      ((infer_legs K data).get ⟨i, hi⟩).dim = (K.block_shape data).getD i 0 ∧
      ((infer_legs K data).get ⟨i, hi⟩).is_real = K.block_is_real data := by
  intro B K data
  refine ⟨List.length_map _ _, ?_⟩
  intro i hi
  have hi' : i < (K.block_shape data).length := by
    simpa [infer_legs] using hi
  have hget : (infer_legs K data).get ⟨i, hi⟩
      = VectorSpace.non_symmetric ((K.block_shape data).getD i 0) (is_real K data) := by
    simp [infer_legs, List.get_eq_getElem, List.getElem_map,
      List.getD_eq_getElem?_getD, List.getElem?_eq_getElem hi']
  rw [hget]
  exact ⟨rfl, rfl, rfl⟩

theorem infer_legs_spec_witness :
    ((infer_legs Kq qb2).get ⟨0, by decide⟩).symmetry = .no_symmetry ∧
    ((infer_legs Kq qb2).get ⟨0, by decide⟩).dim = (Kq.block_shape qb2).getD 0 0 ∧
    ((infer_legs Kq qb2).get ⟨0, by decide⟩).is_real = Kq.block_is_real qb2 :=
  (infer_legs_spec QBlock Kq qb2).2 0 (by decide)

/-- C7: `num_parameters` of the no-symmetry backend equals the product of the
leg dimensions, which is exactly the number of entries of a dense block of
that shape: every entry is a free parameter. -/
theorem num_parameters_counts_all_entries (legs : List VectorSpace) :
    num_parameters legs = (legs.map (fun l => l.dim)).prod ∧
    num_parameters legs = (allIndices (legs.map (fun l => l.dim))).length :=
  ⟨rfl, (length_allIndices _).symm⟩

theorem svdKept_append_discarded (S : List ℚ) (m : ℕ) (θ : ℚ) :
    svdKept S m θ ++ svdDiscarded S m θ = S := by
  have h1 : svdKept S m θ <+: S.take m := List.takeWhile_prefix _
  have h2 : S.take m <+: S := List.take_prefix m S
  obtain ⟨t, ht⟩ := h1.trans h2
  have hd : svdDiscarded S m θ = t :=
    (congrArg (fun l => List.drop (svdKept S m θ).length l) ht.symm).trans
      (List.drop_left _ _)
  rw [hd, ht]

/-- C6: for the spec-modelled truncation policy of the backend `svd`, the kept
and discarded singular values partition the input, at most
`max_singular_values` values are kept, no kept value is below `threshold`, and
on a nonzero spectrum the returned squared relative truncation error times the
squared norm of all values is the squared norm of the discarded values, i.e.
`trunc_err = norm(discarded) / norm(all)`. -/
theorem svd_truncation_spec (S : List ℚ) (m : ℕ) (θ : ℚ) (h : sumSq S ≠ 0) :
    svdKept S m θ ++ svdDiscarded S m θ = S ∧
    (svdKept S m θ).length ≤ m ∧
    (∀ x ∈ svdKept S m θ, θ ≤ x) ∧
    svdTruncErrSq S m θ * sumSq S = sumSq (svdDiscarded S m θ) := by
  refine ⟨svdKept_append_discarded S m θ, ?_, ?_, ?_⟩
  · have h1 : svdKept S m θ <+: S.take m := List.takeWhile_prefix _
    calc (svdKept S m θ).length ≤ (S.take m).length := h1.length_le
      _ ≤ m := by
        rw [List.length_take]
        exact Nat.min_le_left _ _
  · intro x hx
    have := List.mem_takeWhile_imp hx
    exact of_decide_eq_true this
  · rw [svdTruncErrSq]
    exact div_mul_cancel₀ _ h

theorem svd_truncation_spec_witness :
    sumSq [(2 : ℚ), 1] ≠ 0 ∧
    (svdKept [(2 : ℚ), 1] 5 0 ++ svdDiscarded [(2 : ℚ), 1] 5 0 = [(2 : ℚ), 1] ∧
      (svdKept [(2 : ℚ), 1] 5 0).length ≤ 5 ∧
      (∀ x ∈ svdKept [(2 : ℚ), 1] 5 0, (0 : ℚ) ≤ x) ∧
      svdTruncErrSq [(2 : ℚ), 1] 5 0 * sumSq [(2 : ℚ), 1]
        = sumSq (svdDiscarded [(2 : ℚ), 1] 5 0)) :=
  ⟨by norm_num [sumSq], svd_truncation_spec [(2 : ℚ), 1] 5 0 (by norm_num [sumSq])⟩

theorem enc_lt_prod : ∀ {dims idx : List ℕ},
    List.Forall₂ (fun i d => i < d) idx dims → enc dims idx < dims.prod := by
  intro dims idx h
  induction h with
  | nil => simp [enc]
  | @cons i d is ds hid htail ih =>
    show i * ds.prod + enc ds is < (d :: ds).prod
    rw [List.prod_cons]
    calc i * ds.prod + enc ds is < i * ds.prod + ds.prod := Nat.add_lt_add_left ih _
      _ = (i + 1) * ds.prod := by ring
      _ ≤ d * ds.prod := Nat.mul_le_mul_right _ (Nat.succ_le_of_lt hid)

theorem dec_enc : ∀ {dims idx : List ℕ},
    List.Forall₂ (fun i d => i < d) idx dims → dec dims (enc dims idx) = idx := by
  intro dims idx h
  induction h with
  | nil => rfl
  | @cons i d is ds hid htail ih =>
    have hlt : enc ds is < ds.prod := enc_lt_prod htail
    have hpos : 0 < ds.prod := Nat.lt_of_le_of_lt (Nat.zero_le _) hlt
    show (i * ds.prod + enc ds is) / ds.prod
        :: dec ds ((i * ds.prod + enc ds is) % ds.prod) = i :: is
    rw [Nat.add_comm (i * ds.prod) (enc ds is)]
    rw [Nat.add_mul_div_right _ _ hpos, Nat.div_eq_of_lt hlt, Nat.zero_add]
    rw [Nat.add_mul_mod_self_right, Nat.mod_eq_of_lt hlt, ih]

theorem getD_append_of_len {α : Type} (A : List α) (e : α) (C : List α) (d : α) (n : ℕ)
    (h : A.length = n) : (A ++ e :: C).getD n d = e := by
  subst h
  induction A with
  | nil => rfl
  | cons a t ih => simpa using ih

theorem drop_append_succ_of_len {α : Type} (A : List α) (e : α) (C : List α) (n : ℕ)
    (h : A.length = n) : (A ++ e :: C).drop (n + 1) = C := by
  subst h
  induction A with
  | nil => rfl
  | cons a t ih =>
    simp only [List.cons_append, List.length_cons, List.drop_succ_cons]
    exact ih

theorem forall2_take {R : ℕ → ℕ → Prop} : ∀ (n : ℕ) {l₁ l₂ : List ℕ},
    List.Forall₂ R l₁ l₂ → List.Forall₂ R (l₁.take n) (l₂.take n) := by
  intro n l₁ l₂ h
  induction h generalizing n with
  | nil => simp
  | cons h1 h2 ih =>
    cases n with
    | zero => simp
    | succ n =>
      simp only [List.take_succ_cons, List.forall₂_cons]
      exact ⟨h1, ih n⟩

theorem forall2_drop {R : ℕ → ℕ → Prop} : ∀ (n : ℕ) {l₁ l₂ : List ℕ},
    List.Forall₂ R l₁ l₂ → List.Forall₂ R (l₁.drop n) (l₂.drop n) := by
  intro n l₁ l₂ h
  induction h generalizing n with
  | nil => simp
  | cons h1 h2 ih =>
    cases n with
    | zero => exact List.Forall₂.cons h1 h2
    | succ n =>
      simp only [List.drop_succ_cons]
      exact ih n

theorem map_getD_self {α : Type} : ∀ (l : List α) (d : α),
    (List.range l.length).map (fun j => l.getD j d) = l := by
  intro l d
  induction l with
  | nil => rfl
  | cons a t ih =>
    rw [List.length_cons, List.range_succ_eq_map]
    simp only [List.map_cons, List.getD_cons_zero, List.map_map]
    rw [show ((fun j => (a :: t).getD j d) ∘ Nat.succ) = (fun j => t.getD j d) from rfl]
    rw [ih]

theorem posOf_range'_aux : ∀ (n s j : ℕ), j < n → posOf (List.range' s n) (s + j) = j := by
  intro n
  induction n with
  | zero => intro s j h; exact absurd h (Nat.not_lt_zero j)
  | succ n ih =>
    intro s j h
    rw [List.range'_succ]
    cases j with
    | zero => simp [posOf]
    | succ j =>
      have hne : s ≠ s + (j + 1) := by omega
      show (if s = s + (j + 1) then 0 else posOf (List.range' (s + 1) n) (s + (j + 1)) + 1)
          = j + 1
      rw [if_neg hne, show s + (j + 1) = (s + 1) + j from by omega,
        ih (s + 1) j (Nat.lt_of_succ_lt_succ h)]

theorem posOf_range (r j : ℕ) (h : j < r) : posOf (List.range r) j = j := by
  rw [List.range_eq_range']
  have := posOf_range'_aux r 0 j h
  simpa using this

theorem transposeB_range_shape (a : QBlock) :
    (transposeB a (List.range a.shape.length)).shape = a.shape := by
  show (List.range a.shape.length).map (fun i => a.shape.getD i 0) = a.shape
  exact map_getD_self a.shape 0

theorem transposeB_range_entry (a : QBlock) (idx : List ℕ)
    (h : idx.length = a.shape.length) :
    (transposeB a (List.range a.shape.length)).entry idx = a.entry idx := by
  show a.entry ((List.range a.shape.length).map
      (fun j => idx.getD (posOf (List.range a.shape.length) j) 0)) = a.entry idx
  congr 1
  have hcong : ∀ j ∈ List.range a.shape.length,
      idx.getD (posOf (List.range a.shape.length) j) 0 = idx.getD j 0 := by
    intro j hj
    rw [posOf_range _ _ (List.mem_range.mp hj)]
  rw [List.map_congr_left hcong, ← h, map_getD_self]

theorem map_getD_range' : ∀ (k p : ℕ) (l : List ℕ), p + k ≤ l.length →
    (List.range' p k).map (fun i => l.getD i 0) = (l.drop p).take k := by
  intro k
  induction k with
  | zero => intro p l h; simp
  | succ k ih =>
    intro p l h
    have hp : p < l.length := by omega
    have hgd : l.getD p 0 = l[p] := by
      rw [List.getD_eq_getElem?_getD, List.getElem?_eq_getElem hp]
      rfl
    rw [List.range'_succ, List.map_cons, List.drop_eq_getElem_cons hp,
      List.take_succ_cons, hgd, ih (p + 1) l (by omega)]

theorem restAxes_range' (p k m : ℕ) :
    restAxes (p + k + m) (List.range' p k) = List.range p ++ List.range' (p + k) m := by
  unfold restAxes
  have h1 : ∀ x ∈ List.range p, decide (x ∉ List.range' p k) = true := by
    intro x hx
    rw [List.mem_range] at hx
    simp only [decide_eq_true_eq, List.mem_range'_1]
    omega
  have h2 : ∀ x ∈ (List.range k).map (p + ·),
      ¬ (decide (x ∉ List.range' p k) = true) := by
    intro x hx
    simp only [List.mem_map, List.mem_range] at hx
    obtain ⟨j, hj, rfl⟩ := hx
    simp only [decide_eq_true_eq, List.mem_range'_1, not_not]
    omega
  have h3 : ∀ x ∈ (List.range m).map ((p + k) + ·),
      decide (x ∉ List.range' p k) = true := by
    intro x hx
    simp only [List.mem_map, List.mem_range] at hx
    obtain ⟨j, hj, rfl⟩ := hx
    simp only [decide_eq_true_eq, List.mem_range'_1]
    omega
  rw [List.range_add, List.range_add, List.filter_append, List.filter_append,
    List.filter_eq_self.mpr h1, List.filter_eq_nil_iff.mpr h2,
    List.filter_eq_self.mpr h3, List.append_nil, ← List.range'_eq_map_range]

theorem combinePos_range' (p k m : ℕ) (hk : 1 ≤ k) :
    combinePos (p + k + m) (List.range' p k) = p := by
  unfold combinePos
  rw [restAxes_range']
  have hh : (List.range' p k).headD 0 = p := by
    cases k with
    | zero => exact absurd hk (by omega)
    | succ n => rw [List.range'_succ]; rfl
  have h1 : ∀ x ∈ List.range p, decide (x < p) = true := by
    intro x hx
    rw [List.mem_range] at hx
    exact decide_eq_true hx
  have h2 : ∀ x ∈ List.range' (p + k) m, ¬ (decide (x < p) = true) := by
    intro x hx
    rw [List.mem_range'_1] at hx
    simp only [decide_eq_true_eq]
    omega
  rw [hh, List.filter_append, List.filter_eq_self.mpr h1,
    List.filter_eq_nil_iff.mpr h2, List.append_nil, List.length_range]

theorem range'_append_any (s m n t : ℕ) (h : t = s + m) :
    List.range' s m ++ List.range' t n = List.range' s (m + n) := by
  subst h
  have h2 := List.range'_append_1 s m n
  rwa [Nat.add_comm n m] at h2

theorem combinePerm_range' (p k m : ℕ) (hk : 1 ≤ k) :
    combinePerm (p + k + m) (List.range' p k) = List.range (p + k + m) := by
  unfold combinePerm
  rw [restAxes_range', combinePos_range' p k m hk]
  rw [List.take_left' (List.length_range p), List.drop_left' (List.length_range p)]
  rw [List.range_eq_range' p, List.range_eq_range' (p + k + m),
    range'_append_any 0 p k p (by omega),
    range'_append_any 0 (p + k) m (p + k) (by omega)]

theorem split_merge_shape (b : QBlock) (p k : ℕ) (hpk : p + k ≤ b.shape.length) :
    (QBlock.block_split_leg (mergeAt b p k) p ((b.shape.drop p).take k)).shape
      = b.shape := by
  have hA : (b.shape.take p).length = p := by
    rw [List.length_take]
    omega
  have hM : b.shape.take p ++ [((b.shape.drop p).take k).prod] ++ b.shape.drop (p + k)
      = b.shape.take p ++ (((b.shape.drop p).take k).prod :: b.shape.drop (p + k)) := by
    rw [List.append_assoc]
    rfl
  show (b.shape.take p ++ [((b.shape.drop p).take k).prod] ++ b.shape.drop (p + k)).take p ++
      (b.shape.drop p).take k ++
      (b.shape.take p ++ [((b.shape.drop p).take k).prod] ++
        b.shape.drop (p + k)).drop (p + 1) = b.shape
  rw [hM, List.take_left' hA, drop_append_succ_of_len _ _ _ _ hA, List.append_assoc,
    show b.shape.drop (p + k) = (b.shape.drop p).drop k from (List.drop_drop k p b.shape).symm,
    List.take_append_drop, List.take_append_drop]

theorem split_merge_entry (b : QBlock) (p k : ℕ) (hpk : p + k ≤ b.shape.length)
    (idx : List ℕ) (hv : validIdx b.shape idx) :
    (QBlock.block_split_leg (mergeAt b p k) p ((b.shape.drop p).take k)).entry idx
      = b.entry idx := by
  have hlen : idx.length = b.shape.length := List.Forall₂.length_eq hv
  have hdl : ((b.shape.drop p).take k).length = k := by
    rw [List.length_take, List.length_drop]
    omega
  have hA : (idx.take p).length = p := by
    rw [List.length_take]
    omega
  have hmid : List.Forall₂ (fun i d => i < d) ((idx.drop p).take k)
      ((b.shape.drop p).take k) :=
    forall2_take k (forall2_drop p hv)
  have hJ : idx.take p ++ [enc ((b.shape.drop p).take k) ((idx.drop p).take k)] ++
      idx.drop (p + k)
      = idx.take p ++ (enc ((b.shape.drop p).take k) ((idx.drop p).take k)
        :: idx.drop (p + k)) := by
    rw [List.append_assoc]
    rfl
  show (mergeAt b p k).entry (idx.take p ++ [enc ((b.shape.drop p).take k)
      ((idx.drop p).take ((b.shape.drop p).take k).length)] ++
      idx.drop (p + ((b.shape.drop p).take k).length)) = b.entry idx
  rw [hdl, hJ]
  show b.entry ((idx.take p ++ (enc ((b.shape.drop p).take k) ((idx.drop p).take k)
        :: idx.drop (p + k))).take p ++
      dec ((b.shape.drop p).take k)
        ((idx.take p ++ (enc ((b.shape.drop p).take k) ((idx.drop p).take k)
          :: idx.drop (p + k))).getD p 0) ++
      (idx.take p ++ (enc ((b.shape.drop p).take k) ((idx.drop p).take k)
        :: idx.drop (p + k))).drop (p + 1)) = b.entry idx
  rw [List.take_left' hA, getD_append_of_len _ _ _ _ _ hA,
    drop_append_succ_of_len _ _ _ _ hA, dec_enc hmid]
  congr 1
  rw [List.append_assoc,
    show idx.drop (p + k) = (idx.drop p).drop k from (List.drop_drop k p idx).symm,
    List.take_append_drop, List.take_append_drop]

/-- C5 amended: for a contiguous ascending run of axes
`legs = [p, p + 1, ..., p + k - 1]`, splitting the combined leg at position
`legs[0] = p` with the original per-axis extents undoes combining; for a
non-contiguous axis set the round trip instead permutes the axes (the listed
axes end up adjacent), as the repository test `test_combine_split` asserts. -/
theorem combine_split_roundtrip (a : QBlock) (p k : ℕ) (hk : 1 ≤ k)
    (hpk : p + k ≤ a.shape.length) :
    blockEq (QBlock.block_split_leg (QBlock.block_combine_legs a (List.range' p k)) p
      ((List.range' p k).map (fun i => a.shape.getD i 0))) a := by
  have hm : p + k + (a.shape.length - (p + k)) = a.shape.length := by omega
  have hperm : combinePerm a.shape.length (List.range' p k)
      = List.range a.shape.length := by
    have h := combinePerm_range' p k (a.shape.length - (p + k)) hk
    rwa [hm] at h
  have hpos : combinePos a.shape.length (List.range' p k) = p := by
    have h := combinePos_range' p k (a.shape.length - (p + k)) hk
    rwa [hm] at h
  have hlegs : (List.range' p k).length = k := by simp
  have hdims : (List.range' p k).map (fun i => a.shape.getD i 0)
      = (a.shape.drop p).take k := map_getD_range' k p a.shape hpk
  have hcomb : QBlock.block_combine_legs a (List.range' p k)
      = mergeAt (transposeB a (List.range a.shape.length)) p k := by
    unfold QBlock.block_combine_legs
    rw [hperm, hpos, hlegs]
  have hpk' : p + k ≤ (transposeB a (List.range a.shape.length)).shape.length := by
    rw [transposeB_range_shape]
    exact hpk
  constructor
  · rw [hcomb, hdims]
    have h2 := split_merge_shape (transposeB a (List.range a.shape.length)) p k hpk'
    rw [transposeB_range_shape] at h2
    exact h2
  · intro idx hv
    rw [hcomb, hdims]
    have hvB : validIdx (transposeB a (List.range a.shape.length)).shape idx := by
      rw [transposeB_range_shape]
      exact hv
    have h2 := split_merge_entry (transposeB a (List.range a.shape.length)) p k hpk' idx hvB
    rw [transposeB_range_shape] at h2
    rw [h2]
    exact transposeB_range_entry a idx (List.Forall₂.length_eq hv)

theorem combine_split_roundtrip_witness :
    1 ≤ 2 ∧ 1 + 2 ≤ qb3.shape.length ∧
    blockEq (QBlock.block_split_leg (QBlock.block_combine_legs qb3 (List.range' 1 2)) 1
      ((List.range' 1 2).map (fun i => qb3.shape.getD i 0))) qb3 :=
  ⟨by decide, by decide, combine_split_roundtrip qb3 1 2 (by decide) (by decide)⟩

/-- C5 counterexample: combining the non-contiguous axes `[0, 2]` of a
concrete `[2, 2, 2]` block and splitting back with the original extents
`[2, 2]` does not reproduce the block: the middle and last axes come back
swapped. -/
theorem combine_split_not_identity :
    ¬ blockEq (QBlock.block_split_leg (QBlock.block_combine_legs qb3 [0, 2]) 0 [2, 2])
      qb3 := by
  intro h
  have h2 := h.2 [0, 0, 1] (by decide)
  exact absurd h2 (by decide)

end Tenpy
